import Mathlib

/-!
Verification of the `DataSet` parallel transformation engine of
`src/fastNLP/core/dataset/dataset.py`.

The Python code is shallowly embedded below:
* a Python `dict` keeping insertion order is an association list
  `List (String × β)`;
* the Column Store (`DataSet.field_arrays`) maps field names to column
  contents;
* fallible operations return `Except`;
* the multi-process machinery (`_apply_process`, `_apply_single`,
  `_progress_bar`) is modelled by its sequential data flow: a shard plan,
  per-shard worker runs producing result lists and event traces, and a
  counter loop consuming the multiplexed message stream.
-/

set_option autoImplicit false

universe u

variable {α : Type} {β : Type} {ε : Type}

/-! ### Python `dict` primitives (insertion-ordered association lists) -/

/-- `d[k]`: first value stored under key `k`, if any. -/
def lookupD : List (String × β) → String → Option β
  | [], _ => none
  | p :: rest, k => if p.1 = k then some p.2 else lookupD rest k

/-- `d[k] = v`: replace the value at an existing key in place, otherwise
append the new key at the end (Python dict assignment). -/
def dictSet : List (String × β) → String → β → List (String × β)
  | [], k, v => [(k, v)]
  | p :: rest, k, v => if p.1 = k then (k, v) :: rest else p :: dictSet rest k v

/-- `d.pop(k)`: remove the entry at key `k` (keeps everything else in order). -/
def dictErase : List (String × β) → String → List (String × β)
  | [], _ => []
  | p :: rest, k => if p.1 = k then rest else p :: dictErase rest k

/-- `d[k].append(v)` where the values are lists: append `v` to the list stored
under `k`, leaving all other entries alone.  Used both for
`FieldArray.append` and for `results[key].append(value)` in the merge loop. -/
def dictAppendVal (fas : List (String × List α)) (k : String) (v : α) :
    List (String × List α) :=
  fas.map (fun p => if p.1 = k then (p.1, p.2 ++ [v]) else p)

/-- The keys of a dict, in insertion order. -/
def keysOf (fas : List (String × β)) : List String :=
  fas.map Prod.fst

/-! ### The data model

`Instance` (`src/fastNLP/core/dataset/instance.py` is not under `src/`) is
modelled from the spec: a Row View is "a mapping from field name to that
row's value in each column".  `FieldArray` (`src/fastNLP/core/dataset/field.py`
is also absent) is modelled from the spec's Column description: a named,
ordered sequence of values; an entry `(name, content)` of the Column Store.
Its `append` is appending to `content` and its `pop(i)` removes index `i`. -/

/-- Modelled from the spec: a Row View / `Instance`, an insertion-ordered
mapping from field name to value (`instance.py` is not under `src/`). -/
abbrev Instance (α : Type) := List (String × α)

/-- The Column Store: `DataSet.field_arrays`, a dict from field name to the
column's content (`FieldArray`s are collapsed to their `content` list, with
the dict key playing the role of `FieldArray.name`). -/
structure DataSet (α : Type) where
  field_arrays : List (String × List α)
deriving DecidableEq, Repr

/-- `DataSet.__len__` (dataset.py lines 216-224): `0` when there are no
fields, otherwise the length of the first column. -/
def dsLen (d : DataSet α) : Nat :=
  match d.field_arrays with
  | [] => 0
  | p :: _ => p.2.length

/-- The Column Store invariant: every column has the dataset's length. -/
def UniformLen (d : DataSet α) : Prop :=
  ∀ p ∈ d.field_arrays, p.2.length = dsLen d

/-- The body of `DataSet.append`'s loop (lines 246-252): `assert name in
self.field_arrays` then `self.field_arrays[name].append(field)`. -/
def appendStep (fas : List (String × List α)) (p : String × α) :
    Except String (List (String × List α)) :=
  match lookupD fas p.1 with
  | some _ => Except.ok (dictAppendVal fas p.1 p.2)
  | none => Except.error "no such field"

namespace DataSet

/-- `DataSet.append` (lines 229-252): on an empty store every field of the
instance seeds a one-element column; otherwise the field count must match
and every instance field must already exist, and each value is appended to
its column. -/
def append (d : DataSet α) (ins : Instance α) : Except String (DataSet α) :=
  if d.field_arrays.isEmpty then
    Except.ok ⟨ins.map (fun p => (p.1, [p.2]))⟩
  else if d.field_arrays.length ≠ ins.length then
    Except.error "field count mismatch"
  else
    (ins.foldlM appendStep d.field_arrays).map (fun fas => ⟨fas⟩)

/-- `DataSet.add_field` (lines 270-282): on a non-empty store the new
content must have the dataset's length; the column is created or
overwritten by dict assignment. -/
def add_field (d : DataSet α) (field_name : String) (fields : List α) :
    Except String (DataSet α) :=
  if !d.field_arrays.isEmpty && dsLen d != fields.length then
    Except.error "size mismatch"
  else
    Except.ok ⟨dictSet d.field_arrays field_name fields⟩

/-- `DataSet.delete_instance` (lines 284-298); `index` is modelled as a
`Nat` (the claims only use non-negative indices).  Deleting from a one-row
dataset clears the whole store, otherwise index `index` is popped from
every column. -/
def delete_instance (d : DataSet α) (index : Nat) : Except String (DataSet α) :=
  if dsLen d ≤ index then
    Except.error "IndexError"
  else if dsLen d = 1 then
    Except.ok ⟨[]⟩
  else
    Except.ok ⟨d.field_arrays.map (fun p => (p.1, p.2.eraseIdx index))⟩

/-- `DataSet.delete_field` (lines 300-310). -/
def delete_field (d : DataSet α) (field_name : String) : Except String (DataSet α) :=
  if (lookupD d.field_arrays field_name).isSome then
    Except.ok ⟨dictErase d.field_arrays field_name⟩
  else
    Except.error "KeyError"

/-- `DataSet.rename_field` (lines 373-385):
`field_arrays[new_field_name] = field_arrays.pop(field_name)`. -/
def rename_field (d : DataSet α) (field_name new_field_name : String) :
    Except String (DataSet α) :=
  match lookupD d.field_arrays field_name with
  | some content =>
      Except.ok ⟨dictSet (dictErase d.field_arrays field_name) new_field_name content⟩
  | none => Except.error "KeyError"

/-- `DataSet.__getitem__` with an `int` index (line 178), returning a row:
`Instance(**{name: self.field_arrays[name][idx] for name in self.field_arrays})`.
`none` when some column is too short (Python would raise `IndexError`). -/
def getRowGo (idx : Nat) : List (String × List α) → Option (Instance α)
  | [] => some []
  | p :: rest =>
    match p.2.get? idx with
    | none => none
    | some v => (getRowGo idx rest).map (fun row => (p.1, v) :: row)

/-- Row view of a dataset at a given index. -/
def getRow? (d : DataSet α) (idx : Nat) : Option (Instance α) :=
  getRowGo idx d.field_arrays

/-- `DataSet.__getitem__` with a slice `[a:b]` (lines 179-185): the start
index is bounds-checked, then a fresh `DataSet` is built by `add_field`-ing
every column's Python slice `content[a:b]` in order. -/
def getSlice (d : DataSet α) (a b : Nat) : Except String (DataSet α) :=
  if a ≥ dsLen d then
    Except.error "start out of range"
  else
    d.field_arrays.foldlM
      (fun acc p => add_field acc p.1 ((p.2.drop a).take (b - a))) ⟨[]⟩

/-- `DataSet.concat` (lines 689-724) with `field_mapping = None`: every
field of `d1` must also exist in `d2`, and then each of `d1`'s columns is
extended with `d2`'s column of the same name. -/
def concat (d1 d2 : DataSet α) : Except String (DataSet α) :=
  if d1.field_arrays.all (fun p => (lookupD d2.field_arrays p.1).isSome) then
    Except.ok ⟨d1.field_arrays.map
      (fun p => (p.1, p.2 ++ ((lookupD d2.field_arrays p.1).getD [])))⟩
  else
    Except.error "fields not provided"

end DataSet

/-! ### The Shard Planner (`DataSet._apply_process`, lines 490-498) -/

/-- The slicing loop of `_apply_process`:

```
shard_len = len(self) // num_proc
num_left_sample = len(self) % num_proc
start = 0
for _i in range(num_proc):
    end = shard_len + int(_i < num_left_sample) + start
    shard_data.append(self[start:end])
    start = end
```

`shardPlanGo shard_len num_left r i start` produces the `[start, end)`
bounds of the remaining `r` iterations, the next one having index `i`. -/
def shardPlanGo (shard_len num_left : Nat) : Nat → Nat → Nat → List (Nat × Nat)
  | 0, _, _ => []
  | r + 1, i, start =>
    let e := shard_len + (if i < num_left then 1 else 0) + start
    (start, e) :: shardPlanGo shard_len num_left r (i + 1) e

/-- The shard plan for `N` rows and `k` workers. -/
def shardPlan (N k : Nat) : List (Nat × Nat) :=
  shardPlanGo (N / k) (N % k) k 0 0

/-- The size of the `i`-th planned shard. -/
def shardSize (N k i : Nat) : Nat :=
  ((shardPlan N k).getD i (0, 0)).2 - ((shardPlan N k).getD i (0, 0)).1

/-- Closed form of the shard starts: shard `i` starts at
`i * (N / k) + min i (N % k)`. -/
def shardStart (N k i : Nat) : Nat :=
  i * (N / k) + min i (N % k)

/-- All the partition properties claimed for the shard plan. -/
def ShardPlanSpec (N k : Nat) : Prop :=
  (shardPlan N k).length = k
  ∧ ((shardPlan N k).getD 0 (0, 0)).1 = 0
  ∧ ((shardPlan N k).getD (k - 1) (0, 0)).2 = N
  ∧ (∀ i, i + 1 < k →
      ((shardPlan N k).getD i (0, 0)).2 = ((shardPlan N k).getD (i + 1) (0, 0)).1)
  ∧ (∀ i, i < k →
      ((shardPlan N k).getD i (0, 0)).1 < ((shardPlan N k).getD i (0, 0)).2)
  ∧ (∀ i, i < k →
      ((shardPlan N k).getD i (0, 0)).2 - ((shardPlan N k).getD i (0, 0)).1
        = if i < N % k then (N + k - 1) / k else N / k)
  ∧ (∀ j, j < N → ∃! i, i < k
      ∧ ((shardPlan N k).getD i (0, 0)).1 ≤ j
      ∧ j < ((shardPlan N k).getD i (0, 0)).2)

/-! ### The Worker Task (`_apply_single`, lines 39-77)

The worker iterates `enumerate(ds)`, applies the user function either to
`ins[_apply_field]` or to the whole row, collects results in row order,
sends `[idx + 1]` through the pipe right after each completed row, and on
the first failure aborts, reporting the index of the offending row.  The
embedding returns the result (`Except` carrying the reported index on
failure) together with the trace of events (row completions and pipe
sends, in program order).  The user function receives a sum because the
Python argument is dynamically typed: a whole row or one field's value. -/

/-- One observable event of a Worker Task. -/
inductive Ev where
  | done (idx : Nat)
  | send (v : Nat)
deriving DecidableEq, Repr

/-- Errors a single row can produce inside `_apply_single`. -/
inductive ApplyErr (ε : Type) where
  | user (e : ε)
  | fieldKeyError
  | rowIndexError
deriving DecidableEq, Repr

/-- Processing of one row of `_apply_single`: materialize the row
(`self[idx]`), select the field if `_apply_field` was given, and run the
user function. -/
def rowApply (d : DataSet α) (sel : Option String)
    (f : Instance α ⊕ α → Except ε β) (idx : Nat) : Except (ApplyErr ε) β :=
  match DataSet.getRow? d idx with
  | none => Except.error ApplyErr.rowIndexError
  | some ins =>
    match sel with
    | none =>
      match f (Sum.inl ins) with
      | Except.ok b => Except.ok b
      | Except.error e => Except.error (ApplyErr.user e)
    | some s =>
      match lookupD ins s with
      | none => Except.error ApplyErr.fieldKeyError
      | some v =>
        match f (Sum.inr v) with
        | Except.ok b => Except.ok b
        | Except.error e => Except.error (ApplyErr.user e)

/-- The loop of `_apply_single` over a list of row indices.  `hasPipe`
tells whether a progress pipe was supplied (`pipe is not None`). -/
def applySingleGo (d : DataSet α) (sel : Option String)
    (f : Instance α ⊕ α → Except ε β) (hasPipe : Bool) :
    List Nat → Except (Nat × ApplyErr ε) (List β) × List Ev
  | [] => (Except.ok [], [])
  | idx :: rest =>
    match rowApply d sel f idx with
    | Except.error e => (Except.error (idx, e), [])
    | Except.ok b =>
      let r := applySingleGo d sel f hasPipe rest
      ((r.1.map (fun bs => b :: bs)),
        (Ev.done idx :: (if hasPipe then [Ev.send (idx + 1)] else [])) ++ r.2)

/-- `_apply_single` over the whole dataset (`for idx, ins in enumerate(ds)`),
returning the collected results (or the failure with the index reported at
line 72) and the event trace. -/
def applySingle (d : DataSet α) (sel : Option String)
    (f : Instance α ⊕ α → Except ε β) (hasPipe : Bool) :
    Except (Nat × ApplyErr ε) (List β) × List Ev :=
  applySingleGo d sel f hasPipe (List.range (dsLen d))

/-! ### The Progress Monitor (`_progress_bar`, lines 80-103)

The monitor owns a counter seeded at `0`; it blocks on the parent end of
the pipe, receives one message at a time, increments the counter for every
non-`None` message, and breaks out of the loop when the counter equals the
total length.  A worker message is `[idx + 1]`, so the received value is
modelled as an `Option Nat`.  The function consumes the multiplexed stream
of messages; `none` as a result means the stream was exhausted before the
counter reached the total, i.e. the monitor blocks forever on `recv`. -/

def progressBarGo : List (Option Nat) → Nat → Nat → Option Nat
  | [], _, _ => none
  | msg :: rest, nums, total_len =>
    let nums' := if msg.isSome then nums + 1 else nums
    if nums' = total_len then some nums' else progressBarGo rest nums' total_len

/-- `_progress_bar` run on a stream of received messages, with the counter
seeded at `0` (`nums = 0`, line 94). -/
def progressBar (stream : List (Option Nat)) (total_len : Nat) : Option Nat :=
  progressBarGo stream 0 total_len

/-- The number of non-`None` messages of a stream. -/
def countSome (stream : List (Option Nat)) : Nat :=
  (stream.filter (fun m => m.isSome)).length

/-- The send discipline of the Worker Task: whenever the user function
succeeds on every row and a pipe is supplied, the trace of `_apply_single`
is exactly, for each row index in ascending order, the completion of that
row immediately followed by its one pipe send — so one notification per
completed row, sent before the next row is processed. -/
def WorkerSendSpec : Prop :=
  ∀ (α β ε : Type) (d : DataSet α) (sel : Option String)
    (f : Instance α ⊕ α → Except ε β),
    (∀ i, i < dsLen d → ∃ b, rowApply d sel f i = Except.ok b) →
    (applySingle d sel f true).2
      = (List.range (dsLen d)).flatMap (fun i => [Ev.done i, Ev.send (i + 1)])

/-! ### The Result Merger (`apply_more` lines 549-568, `apply_field_more`
lines 441-460; the two loops are textually identical)

A per-row result is whatever the user function returned: `some dict` for a
dict (insertion-ordered items), `none` for anything else. -/

/-- A per-row result of a multi-field apply: a dict, or not a dict. -/
abbrev RowOut (α : Type) := Option (List (String × α))

/-- The ways the merge loop can fail. -/
inductive MergeErr where
  /-- `apply_out[0]` on an empty result list (`IndexError`). -/
  | indexError
  /-- `raise Exception("The result of func is not a dict")` (lines 550-551). -/
  | notDict
  /-- a non-first row is not a dict: `per_out.keys()` raises `AttributeError`. -/
  | attributeError
  /-- `ApplyResultException("apply results have different fields", idx + 1)`. -/
  | applyResultException (idx : Nat)
  /-- `results[key].append(value)` on a key absent from `results` (`KeyError`). -/
  | keyError (key : String)
deriving DecidableEq, Repr

/-- `for key, value in per_out.items(): results[key].append(value)`. -/
def mergeRow (results : List (String × List α)) (per_out : List (String × α)) :
    Except MergeErr (List (String × List α)) :=
  per_out.foldlM (fun (acc : List (String × List α)) (p : String × α) =>
    match lookupD acc p.1 with
    | none => Except.error (MergeErr.keyError p.1)
    | some _ => Except.ok (dictAppendVal acc p.1 p.2)) results

/-- The merge loop over `apply_out[1:]`: for each row, first the check
`len(set(results.keys()) - set(per_out.keys()))` — i.e. some canonical key
is missing from the row — raising `ApplyResultException(_, idx + 1)`, then
the per-key appends. -/
def mergeLoop (results : List (String × List α)) :
    List (RowOut α) → Nat → Except MergeErr (List (String × List α))
  | [], _ => Except.ok results
  | none :: _, _ => Except.error MergeErr.attributeError
  | some per_out :: rest, idx =>
    if (keysOf results).any (fun key => !(keysOf per_out).contains key) then
      Except.error (MergeErr.applyResultException (idx + 1))
    else
      match mergeRow results per_out with
      | Except.error e => Except.error e
      | Except.ok results' => mergeLoop results' rest (idx + 1)

/-- The whole merge: fail unless the first result is a dict, seed `results`
with the first row's keys each holding a one-element list, then run the
merge loop over the remaining rows with `idx` enumerated from `0`. -/
def mergeResults : List (RowOut α) → Except MergeErr (List (String × List α))
  | [] => Except.error MergeErr.indexError
  | none :: _ => Except.error MergeErr.notDict
  | some first :: rest =>
    mergeLoop (first.map (fun p => (p.1, [p.2]))) rest 0

/-! ### `apply_more` / `apply_field_more` as a whole (all-or-nothing write-back)

The store is threaded explicitly so that the state of the Column Store at
the moment of a failure is part of the result: mutation happens only in
the `modify_fields` write-back after the merge loop has fully succeeded. -/

/-- A failure of an `apply_more` / `apply_field_more` call. -/
inductive ApplyMoreErr (ε : Type) where
  /-- `_apply_process` raised: the user function (or row access) failed at a row. -/
  | userErr (idx : Nat) (e : ApplyErr ε)
  /-- the merge failed (non-dict result, field mismatch, key error). -/
  | mergeErr (e : MergeErr)
  /-- `add_field` refused a merged column during write-back. -/
  | writeErr
deriving DecidableEq, Repr

/-- `for field, result in results.items(): self.add_field(field, result)`:
sequential write-back, returning the store reached together with the first
failure, if any. -/
def writeBack (d : DataSet α) : List (String × List α) → DataSet α × Option String
  | [] => (d, none)
  | (k, v) :: rest =>
    match DataSet.add_field d k v with
    | Except.error e => (d, some e)
    | Except.ok d' => writeBack d' rest

/-- `apply_more` (and `apply_field_more`, via `sel`) in the single-process
case: run `_apply_single`, merge, and only then — and only when
`modify_fields` is true — write the merged columns back.  The first
component is the Column Store as left by the call. -/
def applyMoreRun (d : DataSet α) (sel : Option String)
    (f : Instance α ⊕ α → Except ε (RowOut α)) (modify_fields : Bool) :
    DataSet α × Except (ApplyMoreErr ε) (List (String × List α)) :=
  match (applySingle d sel f false).1 with
  | Except.error (i, e) => (d, Except.error (ApplyMoreErr.userErr i e))
  | Except.ok apply_out =>
    match mergeResults apply_out with
    | Except.error e => (d, Except.error (ApplyMoreErr.mergeErr e))
    | Except.ok results =>
      if modify_fields then
        match writeBack d results with
        | (d', none) => (d', Except.ok results)
        | (d', some _) => (d', Except.error ApplyMoreErr.writeErr)
      else (d, Except.ok results)

/-! ### The dispatch of `_apply_process` (lines 479-511) and the pool
worker invocation (lines 503-509) -/

/-- Which execution path `_apply_process` takes: `num_proc == 0` runs
`_apply_single` on the invoking process; anything else clamps `num_proc`
to the dataset size, builds the shard plan and dispatches a worker pool. -/
inductive ProcDispatch where
  | single
  | pool (shards : List (Nat × Nat))
deriving DecidableEq, Repr

/-- The dispatch decision of `_apply_process` for a dataset of `N` rows. -/
def applyProcessDispatch (N num_proc : Nat) : ProcDispatch :=
  if num_proc = 0 then ProcDispatch.single
  else
    let np := if num_proc > N then N else num_proc
    ProcDispatch.pool (shardPlan N np)

/-- The parameter names of `_apply_single` (line 39-40):
`ds`, `_apply_field`, `func`, `show_progress_bar`, `pipe`, `desc`. -/
def applySingleParams : List String :=
  ["ds", "_apply_field", "func", "show_progress_bar", "pipe", "desc"]

/-- The keyword arguments each pool worker call receives: the keywords
bound by `partial(_apply_single, ...)` at line 503 merged with the `kwds`
dict of `pool.apply_async` at line 508. -/
def poolCallKwargs : List String :=
  ["_apply_field", "func", "pipe", "show_progress_bar", "ds", "proc_id"]

/-- Python call semantics: the call raises `TypeError` iff some keyword
argument is not a parameter of the callee. -/
def poolCallRaisesTypeError : Bool :=
  poolCallKwargs.any (fun kw => !(applySingleParams.contains kw))

/-! ## Helper lemmas -/

/-! ### Shard plan characterization -/

theorem shardPlanGo_length (q r : Nat) :
    ∀ (cnt i s : Nat), (shardPlanGo q r cnt i s).length = cnt := by
  intro cnt
  induction cnt with
  | zero => intro i s; rfl
  | succ n ih => intro i s; simp [shardPlanGo, ih]

theorem shardPlan_length (N k : Nat) : (shardPlan N k).length = k :=
  shardPlanGo_length (N / k) (N % k) k 0 0

theorem min_succ_split (i r : Nat) :
    min (i + 1) r = min i r + (if i < r then 1 else 0) := by
  by_cases h : i < r <;> simp [h] <;> omega

theorem shardPlanGo_getD (q r : Nat) :
    ∀ (cnt i t : Nat), t < cnt →
      (shardPlanGo q r cnt i (i * q + min i r)).getD t (0, 0)
        = ((i + t) * q + min (i + t) r, (i + t + 1) * q + min (i + t + 1) r) := by
  intro cnt
  induction cnt with
  | zero => intro i t ht; omega
  | succ n ih =>
    intro i t ht
    have he : q + (if i < r then 1 else 0) + (i * q + min i r)
        = (i + 1) * q + min (i + 1) r := by
      have hm := min_succ_split i r
      have hmul : (i + 1) * q = i * q + q := by ring
      omega
    cases t with
    | zero =>
      simp only [shardPlanGo, he, List.getD_cons_zero]
      simp
    | succ t' =>
      have ht' : t' < n := by omega
      have := ih (i + 1) t' ht'
      simp only [shardPlanGo, he, List.getD_cons_succ]
      rw [this, show i + 1 + t' = i + (t' + 1) from by omega]

theorem shardPlan_getD (N k i : Nat) (hik : i < k) :
    (shardPlan N k).getD i (0, 0) = (shardStart N k i, shardStart N k (i + 1)) := by
  have h := shardPlanGo_getD (N / k) (N % k) k 0 i hik
  simpa [shardPlan, shardStart] using h

theorem shardStart_zero (N k : Nat) : shardStart N k 0 = 0 := by
  simp [shardStart]

theorem shardStart_last (N k : Nat) (hk : 0 < k) : shardStart N k k = N := by
  have hmod : N % k < k := Nat.mod_lt _ hk
  have hdm := Nat.div_add_mod N k
  unfold shardStart
  omega

theorem shardStart_size (N k i : Nat) :
    shardStart N k (i + 1) = shardStart N k i + (N / k + (if i < N % k then 1 else 0)) := by
  unfold shardStart
  have hm := min_succ_split i (N % k)
  have hmul : (i + 1) * (N / k) = i * (N / k) + N / k := by ring
  omega

theorem shardStart_strict (N k : Nat) (hk : 0 < k) (hkN : k ≤ N) :
    ∀ i, shardStart N k i < shardStart N k (i + 1) := by
  intro i
  have hq : 1 ≤ N / k := (Nat.one_le_div_iff hk).2 hkN
  have := shardStart_size N k i
  omega

theorem ceil_div_of_mod_ne (N k : Nat) (hk : 0 < k) (hr : 0 < N % k) :
    (N + k - 1) / k = N / k + 1 := by
  have hdm := Nat.div_add_mod N k
  have hmod : N % k < k := Nat.mod_lt _ hk
  have hsplit : N + k - 1 = k * (N / k + 1) + (N % k - 1) := by
    have : k * (N / k + 1) = k * (N / k) + k := by ring
    omega
  rw [hsplit, Nat.mul_add_div hk, Nat.div_eq_of_lt (show N % k - 1 < k by omega)]

theorem cover_exists (g : Nat → Nat) :
    ∀ (k j : Nat), g 0 ≤ j → j < g k → ∃ i, i < k ∧ g i ≤ j ∧ j < g (i + 1) := by
  intro k
  induction k with
  | zero => intro j h0 hk; omega
  | succ n ih =>
    intro j h0 hk
    by_cases h : g n ≤ j
    · exact ⟨n, Nat.lt_succ_self n, h, hk⟩
    · obtain ⟨i, hi, h1, h2⟩ := ih j h0 (by omega)
      exact ⟨i, by omega, h1, h2⟩

theorem cover_unique (g : Nat → Nat) (hg : ∀ i, g i < g (i + 1)) (k j : Nat)
    (h0 : g 0 ≤ j) (hk : j < g k) :
    ∃! i, i < k ∧ g i ≤ j ∧ j < g (i + 1) := by
  obtain ⟨i, hi⟩ := cover_exists g k j h0 hk
  refine ⟨i, hi, ?_⟩
  intro y hy
  by_contra hne
  have hmono := (strictMono_nat_of_lt_succ hg).monotone
  rcases Nat.lt_or_ge y i with h | h
  · have : g (y + 1) ≤ g i := hmono (by omega)
    omega
  · have : g (i + 1) ≤ g y := hmono (by omega)
    omega

/-! ## Claim C1 -/

/-- C1: for every `N ≥ 1` and `1 ≤ k ≤ N`, the shard plan built by the
multi-process apply path (`DataSet._apply_process`, lines 490-498) consists
of exactly `k` contiguous, ascending, non-overlapping half-open ranges
partitioning `[0, N)`, the first `N % k` of size `⌈N / k⌉` and the rest of
size `⌊N / k⌋`; in particular `N = 7`, `k = 3` yields the shards
`[0,3), [3,5), [5,7)` of sizes `[3, 2, 2]`. -/
theorem shard_plan_partition_C1 (N k : Nat) (hk : 1 ≤ k) (hkN : k ≤ N) :
    ShardPlanSpec N k ∧ shardPlan 7 3 = [(0, 3), (3, 5), (5, 7)] := by
  have hk0 : 0 < k := hk
  have hmod : N % k < k := Nat.mod_lt _ hk0
  have hstrict := shardStart_strict N k hk0 hkN
  have hgd : ∀ i, i < k →
      (shardPlan N k).getD i (0, 0) = (shardStart N k i, shardStart N k (i + 1)) :=
    fun i hi => shardPlan_getD N k i hi
  refine ⟨⟨shardPlan_length N k, ?_, ?_, ?_, ?_, ?_, ?_⟩, by decide⟩
  · rw [hgd 0 hk0]
    exact shardStart_zero N k
  · rw [hgd (k - 1) (by omega), show k - 1 + 1 = k from by omega]
    exact shardStart_last N k hk0
  · intro i hi
    rw [hgd i (by omega), hgd (i + 1) hi]
  · intro i hi
    rw [hgd i hi]
    exact hstrict i
  · intro i hi
    rw [hgd i hi]
    have hsz := shardStart_size N k i
    by_cases h : i < N % k
    · have hr : 0 < N % k := by omega
      rw [if_pos h, ceil_div_of_mod_ne N k hk0 hr]
      simp only [if_pos h] at hsz
      rw [hsz, Nat.add_sub_cancel_left]
    · rw [if_neg h]
      simp only [if_neg h] at hsz
      rw [hsz, Nat.add_sub_cancel_left, Nat.add_zero]
  · intro j hj
    have h0 : shardStart N k 0 ≤ j := by rw [shardStart_zero]; omega
    have hNk : j < shardStart N k k := by rw [shardStart_last N k hk0]; omega
    obtain ⟨i, ⟨hik, hle, hlt⟩, huniq⟩ := cover_unique (shardStart N k) hstrict k j h0 hNk
    refine ⟨i, ⟨hik, ?_, ?_⟩, ?_⟩
    · rw [hgd i hik]; exact hle
    · rw [hgd i hik]; exact hlt
    · intro y hy
      rw [hgd y hy.1] at hy
      exact huniq y ⟨hy.1, hy.2.1, hy.2.2⟩

/-- Witness for C1 at the spec's concrete scenario `N = 7`, `k = 3`. -/
theorem shard_plan_partition_C1_witness :
    ShardPlanSpec 7 3 ∧ shardPlan 7 3 = [(0, 3), (3, 5), (5, 7)] :=
  shard_plan_partition_C1 7 3 (by decide) (by decide)

/-! ## Claim C2 -/

/-- C2 (code bug): the claim says the multi-process path returns, for every
worker count, the same sequence as the single-process path.  The code
cannot: each pool worker is invoked as
`pool.apply_async(partial_single_map, kwds={'ds': ds, "proc_id": proc_id})`
(line 508), but `_apply_single` (line 39) has no `proc_id` parameter, so by
Python call semantics every worker raises
`TypeError: _apply_single() got an unexpected keyword argument 'proc_id'`;
no results are produced and no progress message is ever sent, so the
monitor thread blocks forever.  This theorem evaluates the embedded call
check at the code's keyword sets: the call raises `TypeError` precisely
because `proc_id` is not among `_apply_single`'s parameters, while every
other keyword is accepted. -/
theorem pool_worker_kwargs_C2 :
    poolCallRaisesTypeError = true
    ∧ applySingleParams.contains "proc_id" = false
    ∧ (poolCallKwargs.filter
        (fun kw => !(applySingleParams.contains kw))) = ["proc_id"] := by
  decide

/-! ## Claim C6 -/

/-- C6 as stated is false: `_apply_process` (line 479) runs on the invoking
process only for `num_proc == 0`; `num_proc == 1` falls into the `else`
branch, which creates a worker pool.  Concretely, for a 4-row dataset and
`worker_count = 1` the dispatch is the pool path over the one-shard plan
`[(0, 4)]`, not the single-process path. -/
theorem apply_dispatch_counterexample_C6 :
    applyProcessDispatch 4 1 ≠ ProcDispatch.single
    ∧ applyProcessDispatch 4 1 = ProcDispatch.pool [(0, 4)] := by
  decide

/-- C6 amended: for `worker_count = 0`, apply runs the single Worker Task
(`_apply_single`) over the full dataset in the invoking process; for
`worker_count = 1` the multi-process branch is taken — a worker pool is
created — with a shard plan consisting of the single shard `[0, N)`
covering the full range. -/
theorem apply_dispatch_C6 (N : Nat) (hN : 1 ≤ N) :
    applyProcessDispatch N 0 = ProcDispatch.single
    ∧ applyProcessDispatch N 1 = ProcDispatch.pool [(0, N)] := by
  constructor
  · rfl
  · have h1 : ¬ (1 : Nat) > N := by omega
    simp only [applyProcessDispatch, if_neg (by omega : ¬ (1 : Nat) = 0), if_neg h1]
    have : shardPlan N 1 = [(0, N)] := by
      simp [shardPlan, shardPlanGo, Nat.mod_one, Nat.div_one]
    rw [this]

/-- Witness for the amended C6 at `N = 4`. -/
theorem apply_dispatch_C6_witness :
    applyProcessDispatch 4 0 = ProcDispatch.single
    ∧ applyProcessDispatch 4 1 = ProcDispatch.pool [(0, 4)] :=
  apply_dispatch_C6 4 (by decide)

/-! ### Progress monitor lemmas -/

theorem progressBarGo_some (s : List (Option Nat)) :
    ∀ (nums total_len r : Nat),
      progressBarGo s nums total_len = some r → r = total_len := by
  induction s with
  | nil => intro nums total_len r h; simp [progressBarGo] at h
  | cons m rest ih =>
    intro nums total_len r h
    simp only [progressBarGo] at h
    by_cases hEq : (if m.isSome then nums + 1 else nums) = total_len
    · rw [if_pos hEq] at h
      cases h
      exact hEq
    · rw [if_neg hEq] at h
      exact ih _ _ _ h

theorem countSome_cons (m : Option Nat) (s : List (Option Nat)) :
    countSome (m :: s) = (if m.isSome then 1 else 0) + countSome s := by
  by_cases h : m.isSome <;> simp [countSome, List.filter_cons, h] <;> omega

theorem progressBarGo_isSome_iff (s : List (Option Nat)) :
    ∀ (nums total_len : Nat), nums < total_len →
      ((progressBarGo s nums total_len).isSome ↔ total_len ≤ nums + countSome s) := by
  induction s with
  | nil =>
    intro nums total_len hlt
    simp only [progressBarGo, Option.isSome_none, countSome, List.filter_nil,
      List.length_nil, Bool.false_eq_true, false_iff]
    omega
  | cons m rest ih =>
    intro nums total_len hlt
    cases m with
    | some v =>
      have h1 : (if (some v).isSome then nums + 1 else nums) = nums + 1 := by simp
      have h2 : (if (some v).isSome then 1 else 0) = 1 := by simp
      simp only [progressBarGo]
      rw [h1, countSome_cons, h2]
      by_cases hEq : nums + 1 = total_len
      · rw [if_pos hEq]
        simp only [Option.isSome_some, true_iff]
        omega
      · rw [if_neg hEq, ih (nums + 1) total_len (by omega)]
        omega
    | none =>
      have h1 : (if (none : Option Nat).isSome then nums + 1 else nums) = nums := by simp
      have h2 : (if (none : Option Nat).isSome then 1 else 0) = 0 := by simp
      simp only [progressBarGo]
      rw [h1, countSome_cons, h2]
      by_cases hEq : nums = total_len
      · exact absurd hEq (by omega)
      · rw [if_neg hEq, ih nums total_len (by omega)]
        omega

/-! ### Shard size lemmas -/

theorem shardSize_eq (N k i : Nat) (hik : i < k) :
    shardSize N k i = N / k + (if i < N % k then 1 else 0) := by
  unfold shardSize
  rw [shardPlan_getD N k i hik]
  show shardStart N k (i + 1) - shardStart N k i = _
  rw [shardStart_size N k i, Nat.add_sub_cancel_left]

theorem sum_ite_lt (r : Nat) : ∀ (k : Nat),
    (∑ i ∈ Finset.range k, (if i < r then 1 else 0)) = min k r := by
  intro k
  induction k with
  | zero => simp
  | succ n ih =>
    rw [Finset.sum_range_succ, ih]
    by_cases hn : n < r
    · rw [if_pos hn]; omega
    · rw [if_neg hn]; omega

theorem sum_shardSize (N k : Nat) (hk : 1 ≤ k) (hkN : k ≤ N) :
    (∑ i ∈ Finset.range k, shardSize N k i) = N := by
  have hk0 : 0 < k := hk
  have hmod : N % k < k := Nat.mod_lt _ hk0
  have hsz : ∀ i ∈ Finset.range k, shardSize N k i
      = N / k + (if i < N % k then 1 else 0) := by
    intro i hi
    exact shardSize_eq N k i (Finset.mem_range.mp hi)
  rw [Finset.sum_congr rfl hsz, Finset.sum_add_distrib, Finset.sum_const,
    Finset.card_range, sum_ite_lt]
  have hdm := Nat.div_add_mod N k
  simp only [smul_eq_mul]
  omega

theorem sum_eq_forcing_pointwise (k : Nat) (c g : Nat → Nat)
    (hle : ∀ i, i < k → c i ≤ g i)
    (hsum : (∑ i ∈ Finset.range k, c i) = ∑ i ∈ Finset.range k, g i) :
    ∀ i, i < k → c i = g i := by
  intro i hi
  by_contra hne
  have hlt : c i < g i := by
    have := hle i hi
    omega
  have : (∑ j ∈ Finset.range k, c j) < ∑ j ∈ Finset.range k, g j :=
    Finset.sum_lt_sum (fun j hj => hle j (Finset.mem_range.mp hj))
      ⟨i, Finset.mem_range.mpr hi, hlt⟩
  omega

/-! ### Worker trace lemma -/

theorem applySingleGo_trace_ok {α β ε : Type} (d : DataSet α) (sel : Option String)
    (f : Instance α ⊕ α → Except ε β) (hasPipe : Bool) :
    ∀ (l : List Nat), (∀ i ∈ l, ∃ b, rowApply d sel f i = Except.ok b) →
      (applySingleGo d sel f hasPipe l).2
        = l.flatMap (fun i => Ev.done i :: (if hasPipe then [Ev.send (i + 1)] else [])) := by
  intro l
  induction l with
  | nil => intro h; rfl
  | cons a rest ih =>
    intro h
    obtain ⟨b, hb⟩ := h a (by simp)
    simp only [applySingleGo, hb, List.flatMap_cons]
    rw [ih (fun i hi => h i (by simp [hi]))]

/-! ## Claim C3 -/

/-- C3: the Progress Monitor (`_progress_bar`) starts its counter at `0`,
consumes the single multiplexed inbound stream one message at a time,
increments once per (non-`None`) notification, and terminates exactly when
the counter reaches `N` (second conjunct: any terminating run ends with the
counter equal to `N`).  Given per-worker completed-row counts `c i` bounded
by the shard sizes of the plan for `(N, k)`, and a stream carrying exactly
one (non-`None`) message per completed row, the monitor terminates iff
every worker completed every row of its shard (first conjunct).  The third
conjunct is the worker side: with a pipe supplied, `_apply_single`'s trace
has, for each row in ascending order, the row completion immediately
followed by its single `pipe.send([idx + 1])`, before the next row. -/
theorem progress_monitor_C3 (N k : Nat) (c : Nat → Nat) (s : List (Option Nat))
    (hk : 1 ≤ k) (hkN : k ≤ N)
    (hc : ∀ i, i < k → c i ≤ shardSize N k i)
    (hsent : countSome s = ∑ i ∈ Finset.range k, c i)
    (hmsgs : ∀ m ∈ s, m ≠ none) :
    ((progressBar s N).isSome ↔ ∀ i, i < k → c i = shardSize N k i)
    ∧ (∀ r, progressBar s N = some r → r = N)
    ∧ WorkerSendSpec := by
  have hN : 0 < N := by omega
  have hsum := sum_shardSize N k hk hkN
  have hle : (∑ i ∈ Finset.range k, c i) ≤ ∑ i ∈ Finset.range k, shardSize N k i :=
    Finset.sum_le_sum (fun i hi => hc i (Finset.mem_range.mp hi))
  refine ⟨?_, ?_, ?_⟩
  · rw [show progressBar s N = progressBarGo s 0 N from rfl,
      progressBarGo_isSome_iff s 0 N hN, Nat.zero_add, hsent]
    constructor
    · intro hge
      exact sum_eq_forcing_pointwise k c (shardSize N k) hc (by omega)
    · intro hall
      have : (∑ i ∈ Finset.range k, c i) = ∑ i ∈ Finset.range k, shardSize N k i :=
        Finset.sum_congr rfl (fun i hi => hall i (Finset.mem_range.mp hi))
      omega
  · intro r hr
    exact progressBarGo_some s 0 N r hr
  · intro α β ε d sel f hok
    exact applySingleGo_trace_ok d sel f true (List.range (dsLen d))
      (fun i hi => hok i (List.mem_range.mp hi))

/-- Witness for C3: `N = 7`, `k = 3`, every worker completing its whole
shard, and a stream of seven notifications. -/
theorem progress_monitor_C3_witness :
    ((progressBar (List.replicate 7 (some 1)) 7).isSome
        ↔ ∀ i, i < 3 → shardSize 7 3 i = shardSize 7 3 i)
    ∧ (∀ r, progressBar (List.replicate 7 (some 1)) 7 = some r → r = 7)
    ∧ WorkerSendSpec :=
  progress_monitor_C3 7 3 (fun i => shardSize 7 3 i) (List.replicate 7 (some 1))
    (by decide) (by decide) (fun i _ => Nat.le_refl _) (by decide) (by decide)

/-! ### Worker failure lemmas -/

theorem flatMap_singleton_eq_map {γ : Type} (g : Nat → γ) :
    ∀ (l : List Nat), l.flatMap (fun i => [g i]) = l.map g := by
  intro l
  induction l with
  | nil => rfl
  | cons a t ih => simp [List.flatMap_cons, ih]

theorem range_split (N j : Nat) (hj : j < N) :
    List.range N
      = List.range j ++ j :: (List.range (N - (j + 1))).map (fun t => j + 1 + t) := by
  have h1 : N = (j + 1) + (N - (j + 1)) := by omega
  rw [show List.range N = List.range ((j + 1) + (N - (j + 1))) from by rw [← h1],
    List.range_add, show j + 1 = Nat.succ j from rfl, List.range_succ]
  simp

theorem applySingleGo_fail {α β ε : Type} (d : DataSet α) (sel : Option String)
    (f : Instance α ⊕ α → Except ε β) (hasPipe : Bool) (j : Nat) (e : ApplyErr ε)
    (hfail : rowApply d sel f j = Except.error e) :
    ∀ (l1 l2 : List Nat), (∀ i ∈ l1, ∃ b, rowApply d sel f i = Except.ok b) →
      applySingleGo d sel f hasPipe (l1 ++ j :: l2)
        = (Except.error (j, e),
           l1.flatMap (fun i => Ev.done i :: (if hasPipe then [Ev.send (i + 1)] else []))) := by
  intro l1
  induction l1 with
  | nil =>
    intro l2 h
    simp only [List.nil_append, applySingleGo, hfail, List.flatMap_nil]
  | cons a t ih =>
    intro l2 h
    obtain ⟨b, hb⟩ := h a (by simp)
    simp only [List.cons_append, applySingleGo, hb, List.flatMap_cons, List.append_eq]
    rw [ih l2 (fun i hi => h i (by simp [hi]))]
    simp [Except.map]

/-! ## Claim C7 -/

/-- C7: in a single-process apply, when the user function first fails at
row `j` (succeeding on every earlier row), the Worker Task aborts exactly
there: the surfaced failure carries the global row index `j`, and the
trace shows rows `0, …, j-1` completed and nothing at or after row `j`
attempted (no row silently skipped). -/
theorem apply_single_abort_C7 {α β ε : Type} (d : DataSet α) (sel : Option String)
    (f : Instance α ⊕ α → Except ε β) (j : Nat) (e : ApplyErr ε)
    (hj : j < dsLen d)
    (hok : ∀ i, i < j → ∃ b, rowApply d sel f i = Except.ok b)
    (hfail : rowApply d sel f j = Except.error e) :
    (applySingle d sel f false).1 = Except.error (j, e)
    ∧ (applySingle d sel f false).2 = (List.range j).map Ev.done := by
  have hsplit := range_split (dsLen d) j hj
  have h := applySingleGo_fail d sel f false j e hfail (List.range j)
    ((List.range (dsLen d - (j + 1))).map (fun t => j + 1 + t))
    (fun i hi => hok i (List.mem_range.mp hi))
  rw [show applySingle d sel f false
      = applySingleGo d sel f false (List.range (dsLen d)) from rfl, hsplit, h]
  refine ⟨rfl, ?_⟩
  exact flatMap_singleton_eq_map Ev.done (List.range j)

/-- Witness for C7 at the spec's scenario: a 10-row dataset whose function
raises on row 4 — the error reports row index 4 and exactly rows 0-3 ran. -/
theorem apply_single_abort_C7_witness :
    (applySingle (⟨[("x", [0, 1, 2, 3, 4, 5, 6, 7, 8, 9])]⟩ : DataSet Nat) (some "x")
        (fun a => match a with
          | Sum.inr v => if v = 4 then Except.error "boom" else Except.ok (v * 2)
          | Sum.inl _ => Except.ok 0) false).1
      = Except.error (4, ApplyErr.user "boom")
    ∧ (applySingle (⟨[("x", [0, 1, 2, 3, 4, 5, 6, 7, 8, 9])]⟩ : DataSet Nat) (some "x")
        (fun a => match a with
          | Sum.inr v => if v = 4 then Except.error "boom" else Except.ok (v * 2)
          | Sum.inl _ => Except.ok 0) false).2
      = (List.range 4).map Ev.done :=
  apply_single_abort_C7 _ _ _ 4 (ApplyErr.user "boom") (by decide)
    (fun i hi => by interval_cases i <;> exact ⟨_, rfl⟩) rfl

/-! ### Merge loop lemmas -/

theorem lookupD_isSome_iff (key : String) :
    ∀ (fas : List (String × β)), (lookupD fas key).isSome = true ↔ key ∈ keysOf fas := by
  intro fas
  induction fas with
  | nil => simp [lookupD, keysOf]
  | cons p t ih =>
    simp only [lookupD, keysOf, List.map_cons, List.mem_cons]
    by_cases h : p.1 = key
    · rw [if_pos h]
      simp [h.symm]
    · rw [if_neg h, ih]
      constructor
      · intro hm
        exact Or.inr hm
      · rintro (hm | hm)
        · exact absurd hm.symm h
        · exact hm

theorem keysOf_dictAppendVal (fas : List (String × List α)) (k : String) (v : α) :
    keysOf (dictAppendVal fas k v) = keysOf fas := by
  unfold dictAppendVal keysOf
  rw [List.map_map]
  apply List.map_congr_left
  intro p hp
  by_cases h : p.1 = k <;> simp [h]

theorem any_missing_iff (ks rs : List String) :
    ks.any (fun key => !rs.contains key) = true ↔ ∃ key ∈ ks, key ∉ rs := by
  rw [List.any_eq_true]
  constructor
  · rintro ⟨key, hk, hprop⟩
    refine ⟨key, hk, ?_⟩
    simpa using hprop
  · rintro ⟨key, hk, hprop⟩
    exact ⟨key, hk, by simpa using hprop⟩

theorem mergeRow_ok (per_out : List (String × α)) :
    ∀ (results : List (String × List α)),
      (∀ p ∈ per_out, (lookupD results p.1).isSome = true) →
      ∃ res, mergeRow results per_out = Except.ok res ∧ keysOf res = keysOf results := by
  induction per_out with
  | nil => intro results h; exact ⟨results, rfl, rfl⟩
  | cons p t ih =>
    intro results h
    have hp := h p (by simp)
    obtain ⟨v, hv⟩ := Option.isSome_iff_exists.mp hp
    have hrest : ∀ q ∈ t, (lookupD (dictAppendVal results p.1 p.2) q.1).isSome = true := by
      intro q hq
      rw [lookupD_isSome_iff, keysOf_dictAppendVal, ← lookupD_isSome_iff]
      exact h q (by simp [hq])
    obtain ⟨res, hres, hkeys⟩ := ih (dictAppendVal results p.1 p.2) hrest
    refine ⟨res, ?_, by rw [hkeys, keysOf_dictAppendVal]⟩
    simp only [mergeRow, List.foldlM_cons, hv]
    exact hres

theorem mergeLoop_missing_key {α : Type} :
    ∀ (j : Nat) (rest : List (RowOut α)) (results : List (String × List α)) (idx : Nat)
      (rj : List (String × α)),
      rest.get? j = some (some rj) →
      (∀ t, t < j → ∃ rt, rest.get? t = some (some rt)
          ∧ ∀ key, (key ∈ keysOf rt ↔ key ∈ keysOf results)) →
      (∃ key, key ∈ keysOf results ∧ key ∉ keysOf rj) →
      mergeLoop results rest idx
        = Except.error (MergeErr.applyResultException (idx + j + 1)) := by
  intro j
  induction j with
  | zero =>
    intro rest results idx rj hj hbefore hmiss
    cases rest with
    | nil => simp at hj
    | cons r0 rest' =>
      rw [List.get?_cons_zero] at hj
      obtain rfl : r0 = some rj := by injection hj
      obtain ⟨key, hk1, hk2⟩ := hmiss
      simp only [mergeLoop]
      rw [if_pos (any_missing_iff _ _ |>.mpr ⟨key, hk1, hk2⟩)]
  | succ j' ih =>
    intro rest results idx rj hj hbefore hmiss
    cases rest with
    | nil => simp at hj
    | cons r0 rest' =>
      obtain ⟨rt, hrt, hkeys⟩ := hbefore 0 (by omega)
      rw [List.get?_cons_zero] at hrt
      obtain rfl : r0 = some rt := by injection hrt
      rw [List.get?_cons_succ] at hj
      simp only [mergeLoop]
      rw [if_neg ?hno]
      case hno =>
        rw [any_missing_iff]
        push_neg
        intro key hk
        exact (hkeys key).mpr hk
      have hmem : ∀ p ∈ rt, (lookupD results p.1).isSome = true := by
        intro p hp
        rw [lookupD_isSome_iff]
        refine (hkeys p.1).mp ?_
        exact List.mem_map_of_mem Prod.fst hp
      obtain ⟨res, hres, hkres⟩ := mergeRow_ok rt results hmem
      have hb' : ∀ t, t < j' → ∃ rt', rest'.get? t = some (some rt')
          ∧ ∀ key, (key ∈ keysOf rt' ↔ key ∈ keysOf res) := by
        intro t ht
        obtain ⟨rt', hrt', hkeys'⟩ := hbefore (t + 1) (by omega)
        rw [List.get?_cons_succ] at hrt'
        exact ⟨rt', hrt', fun key => by rw [hkres]; exact hkeys' key⟩
      have hm' : ∃ key, key ∈ keysOf res ∧ key ∉ keysOf rj := by
        obtain ⟨key, hk1, hk2⟩ := hmiss
        exact ⟨key, by rw [hkres]; exact hk1, hk2⟩
      rw [hres]
      show mergeLoop res rest' (idx + 1) = _
      rw [ih rest' res (idx + 1) rj hj hb' hm',
        show idx + 1 + j' + 1 = idx + (j' + 1) + 1 from by omega]

/-! ## Claim C4 -/

/-- Counterexample to C4: a second row whose key set has an *extra* key
(`{"a","b"}` against the canonical `{"a"}`).  The claim says any key-set
difference fails with `ApplyResultException` carrying position 1; the
code's check `set(results.keys()) - set(per_out.keys())` is empty here, so
the merge proceeds and instead dies with a `KeyError` on `"b"` at
`results[key].append(value)`. -/
theorem merge_extra_key_C4_counterexample :
    mergeResults [some [("a", (1 : Nat))], some [("a", 1), ("b", 2)]]
      = Except.error (MergeErr.keyError "b")
    ∧ mergeResults [some [("a", (1 : Nat))], some [("a", 1), ("b", 2)]]
      ≠ Except.error (MergeErr.applyResultException 1) := by
  refine ⟨rfl, ?_⟩
  intro h
  rw [show mergeResults [some [("a", (1 : Nat))], some [("a", 1), ("b", 2)]]
      = Except.error (MergeErr.keyError "b") from rfl] at h
  injection h with h2
  exact absurd h2 (by decide)

/-- C4 amended: the merge of `apply_more` / `apply_field_more` compares
each subsequent row's key set against the first row's keys only in one
direction — a row *missing* some canonical key fails with
`ApplyResultException` carrying that row's 1-based position among the
non-first rows, and no row at or after the offending one is merged; a row
whose keys strictly contain the canonical set passes the check and fails
with a `KeyError` on the extra key instead (see the counterexample). -/
theorem merge_missing_key_C4 {α : Type} (r0 : List (String × α)) (rest : List (RowOut α))
    (j : Nat) (rj : List (String × α))
    (hj : rest.get? j = some (some rj))
    (hbefore : ∀ t, t < j → ∃ rt, rest.get? t = some (some rt)
        ∧ ∀ key, (key ∈ keysOf rt ↔ key ∈ keysOf r0))
    (hmiss : ∃ key, key ∈ keysOf r0 ∧ key ∉ keysOf rj) :
    mergeResults (some r0 :: rest)
      = Except.error (MergeErr.applyResultException (j + 1)) := by
  have hseed : keysOf (r0.map (fun p => (p.1, [p.2]))) = keysOf r0 := by
    unfold keysOf
    rw [List.map_map]
    rfl
  show mergeLoop (r0.map (fun p => (p.1, [p.2]))) rest 0 = _
  rw [mergeLoop_missing_key j rest (r0.map (fun p => (p.1, [p.2]))) 0 rj hj
      (by simpa only [hseed] using hbefore) (by simpa only [hseed] using hmiss),
    show (0 : Nat) + j + 1 = j + 1 from by omega]

/-- Witness for the amended C4 at the spec's scenario 3: all rows return
`{"a", "b"}` except the row at position 2 (1-based among non-first rows),
which returns only `{"a"}` — the merge fails with
`ApplyResultException` at position 2. -/
theorem merge_missing_key_C4_witness :
    mergeResults [some [("a", (1 : Nat)), ("b", 2)], some [("a", 1), ("b", 2)],
        some [("a", 1)]]
      = Except.error (MergeErr.applyResultException 2) :=
  merge_missing_key_C4 [("a", (1 : Nat)), ("b", 2)]
    [some [("a", 1), ("b", 2)], some [("a", 1)]] 1 [("a", 1)]
    (by decide)
    (fun t ht => by
      interval_cases t
      exact ⟨[("a", 1), ("b", 2)], rfl, fun key => Iff.rfl⟩)
    ⟨"b", by decide, by decide⟩

/-! ## Claim C5 -/

/-- C5: whenever an `apply_more` / `apply_field_more` call fails with any
of the failures the claim lists — a user-function error surfaced by
`_apply_process`, a non-dict first result, a field mismatch, or a key
error in the merge (i.e. anything except the write-back itself, which
cannot fail after a successful merge) — the Column Store is left exactly
as it was: the `add_field` write-back loop runs only after the whole merge
has succeeded. -/
theorem apply_more_atomic_C5 {α ε : Type} (d : DataSet α) (sel : Option String)
    (f : Instance α ⊕ α → Except ε (RowOut α)) (modify_fields : Bool)
    (err : ApplyMoreErr ε)
    (herr : (applyMoreRun d sel f modify_fields).2 = Except.error err)
    (hnw : err ≠ ApplyMoreErr.writeErr) :
    (applyMoreRun d sel f modify_fields).1 = d := by
  rcases h1 : (applySingle d sel f false).1 with pe | apply_out
  · obtain ⟨i, e⟩ := pe
    simp only [applyMoreRun, h1]
  · simp only [applyMoreRun, h1] at herr ⊢
    rcases h2 : mergeResults apply_out with e | results
    · simp only [h2]
    · simp only [h2] at herr ⊢
      by_cases hm : modify_fields = true
      · simp only [hm, if_true] at herr ⊢
        rcases h3 : writeBack d results with ⟨d', o⟩
        rcases o with _ | s
        · rw [h3] at herr
          exact Except.noConfusion herr
        · rw [h3] at herr
          injection herr with h4
          exact absurd h4.symm hnw
      · rw [Bool.not_eq_true] at hm
        rw [hm]
        rfl

/-- Witness for C5: a two-row store whose user function returns a
non-dict for every row — the call fails with the non-dict merge error and
the Column Store is returned unchanged. -/
theorem apply_more_atomic_C5_witness :
    (applyMoreRun (⟨[("x", [1, 2])]⟩ : DataSet Nat) none
        (fun _ => Except.ok (none : RowOut Nat) : Instance Nat ⊕ Nat → Except String (RowOut Nat))
        true).2
      = Except.error (ApplyMoreErr.mergeErr MergeErr.notDict)
    ∧ (applyMoreRun (⟨[("x", [1, 2])]⟩ : DataSet Nat) none
        (fun _ => Except.ok (none : RowOut Nat) : Instance Nat ⊕ Nat → Except String (RowOut Nat))
        true).1
      = (⟨[("x", [1, 2])]⟩ : DataSet Nat) :=
  ⟨rfl,
    apply_more_atomic_C5 _ none _ true (ApplyMoreErr.mergeErr MergeErr.notDict) rfl
      (fun h => ApplyMoreErr.noConfusion h)⟩

/-! ### Column store lemmas -/

theorem uniform_of_allLen (fas : List (String × List α)) (L : Nat)
    (h : ∀ p ∈ fas, p.2.length = L) : UniformLen (⟨fas⟩ : DataSet α) := by
  intro p hp
  cases fas with
  | nil => cases hp
  | cons q t =>
    have hq : dsLen (⟨q :: t⟩ : DataSet α) = q.2.length := rfl
    rw [hq, h q (by simp)]
    exact h p hp

theorem mem_dictSet {γ : Type} (k : String) (v : γ) :
    ∀ (fas : List (String × γ)) (p : String × γ),
      p ∈ dictSet fas k v → p = (k, v) ∨ p ∈ fas := by
  intro fas
  induction fas with
  | nil =>
    intro p hp
    simp only [dictSet, List.mem_singleton] at hp
    exact Or.inl hp
  | cons q t ih =>
    intro p hp
    by_cases h : q.1 = k
    · simp only [dictSet, if_pos h, List.mem_cons] at hp
      rcases hp with h1 | h1
      · exact Or.inl h1
      · exact Or.inr (List.mem_cons_of_mem q h1)
    · simp only [dictSet, if_neg h, List.mem_cons] at hp
      rcases hp with h1 | h1
      · exact Or.inr (by simp [h1])
      · rcases ih p h1 with h2 | h2
        · exact Or.inl h2
        · exact Or.inr (List.mem_cons_of_mem q h2)

theorem dictSet_append {γ : Type} (k : String) (v : γ) :
    ∀ (fas : List (String × γ)), k ∉ keysOf fas → dictSet fas k v = fas ++ [(k, v)] := by
  intro fas
  induction fas with
  | nil => intro h; rfl
  | cons q t ih =>
    intro h
    have h1 : ¬ q.1 = k := by
      intro he
      exact h (by simp [keysOf, he])
    have h2 : k ∉ keysOf t := by
      intro he
      exact h (by simp [keysOf] at he ⊢; exact Or.inr he)
    simp only [dictSet, if_neg h1, List.cons_append, ih h2]

theorem keysOf_map_pres {γ δ : Type} (v : (String × γ) → δ) (l : List (String × γ)) :
    keysOf (l.map (fun q => (q.1, v q))) = keysOf l := by
  unfold keysOf
  rw [List.map_map]
  exact List.map_congr_left (fun q _ => rfl)

theorem lookupD_eq_of_mem_nodup {γ : Type} :
    ∀ (l : List (String × γ)), (keysOf l).Nodup →
      ∀ (p : String × γ), p ∈ l → lookupD l p.1 = some p.2 := by
  intro l
  induction l with
  | nil => intro _ p hp; cases hp
  | cons q t ih =>
    intro hN p hp
    have hN' : (keysOf t).Nodup ∧ q.1 ∉ keysOf t := by
      simp only [keysOf, List.map_cons, List.nodup_cons] at hN
      exact ⟨hN.2, hN.1⟩
    rcases List.mem_cons.mp hp with h1 | h1
    · rw [h1]
      simp [lookupD]
    · have hkey : ¬ q.1 = p.1 := by
        intro he
        exact hN'.2 (he ▸ List.mem_map_of_mem Prod.fst h1)
      simp only [lookupD, if_neg hkey]
      exact ih hN'.1 p h1

theorem add_field_uniform (d : DataSet α) (hU : UniformLen d)
    (name : String) (fields : List α) (d' : DataSet α)
    (h : DataSet.add_field d name fields = Except.ok d') : UniformLen d' := by
  unfold DataSet.add_field at h
  by_cases hc : (!d.field_arrays.isEmpty && dsLen d != fields.length) = true
  · rw [if_pos hc] at h
    exact Except.noConfusion h
  · rw [if_neg hc] at h
    injection h with h'
    subst h'
    by_cases he : d.field_arrays = []
    · apply uniform_of_allLen _ fields.length
      intro p hp
      rw [he] at hp
      simp only [dictSet, List.mem_singleton] at hp
      rw [hp]
    · have hie : d.field_arrays.isEmpty = false := by
        rcases hfa : d.field_arrays with _ | ⟨q, t⟩
        · exact absurd hfa he
        · rfl
      have hlen : dsLen d = fields.length := by
        rw [hie] at hc
        simp only [Bool.not_false, Bool.true_and] at hc
        exact bne_eq_false_iff_eq.mp (Bool.not_eq_true _ |>.mp hc)
      apply uniform_of_allLen _ (dsLen d)
      intro p hp
      rcases mem_dictSet name fields d.field_arrays p hp with h1 | h1
      · rw [h1]
        exact hlen.symm
      · exact hU p h1

theorem dictErase_subset {γ : Type} (k : String) :
    ∀ (fas : List (String × γ)) (p : String × γ), p ∈ dictErase fas k → p ∈ fas := by
  intro fas
  induction fas with
  | nil => intro p hp; cases hp
  | cons q t ih =>
    intro p hp
    by_cases h : q.1 = k
    · simp only [dictErase, if_pos h] at hp
      exact List.mem_cons_of_mem q hp
    · simp only [dictErase, if_neg h, List.mem_cons] at hp
      rcases hp with h1 | h1
      · exact List.mem_cons.mpr (Or.inl h1)
      · exact List.mem_cons_of_mem q (ih p h1)

theorem delete_field_uniform (d : DataSet α) (hU : UniformLen d)
    (name : String) (d' : DataSet α)
    (h : DataSet.delete_field d name = Except.ok d') : UniformLen d' := by
  unfold DataSet.delete_field at h
  by_cases hc : (lookupD d.field_arrays name).isSome = true
  · rw [if_pos hc] at h
    injection h with h'
    subst h'
    exact uniform_of_allLen _ (dsLen d)
      (fun p hp => hU p (dictErase_subset name d.field_arrays p hp))
  · rw [if_neg hc] at h
    exact Except.noConfusion h

theorem lookupD_mem {γ : Type} (k : String) :
    ∀ (fas : List (String × γ)) (v : γ), lookupD fas k = some v → (k, v) ∈ fas := by
  intro fas
  induction fas with
  | nil => intro v hv; exact Option.noConfusion hv
  | cons q t ih =>
    intro v hv
    by_cases h : q.1 = k
    · simp only [lookupD, if_pos h] at hv
      injection hv with hv'
      obtain ⟨q1, q2⟩ := q
      cases h
      cases hv'
      exact List.mem_cons_self _ _
    · simp only [lookupD, if_neg h] at hv
      exact List.mem_cons_of_mem q (ih v hv)

theorem rename_field_uniform (d : DataSet α) (hU : UniformLen d)
    (old nw : String) (d' : DataSet α)
    (h : DataSet.rename_field d old nw = Except.ok d') : UniformLen d' := by
  unfold DataSet.rename_field at h
  rcases hl : lookupD d.field_arrays old with _ | content
  · rw [hl] at h
    exact Except.noConfusion h
  · rw [hl] at h
    injection h with h'
    subst h'
    apply uniform_of_allLen _ (dsLen d)
    intro p hp
    rcases mem_dictSet nw content (dictErase d.field_arrays old) p hp with h1 | h1
    · rw [h1]
      exact hU (old, content) (lookupD_mem old d.field_arrays content hl)
    · exact hU p (dictErase_subset old d.field_arrays p h1)

theorem delete_instance_uniform (d : DataSet α) (hU : UniformLen d)
    (i : Nat) (d' : DataSet α)
    (h : DataSet.delete_instance d i = Except.ok d') : UniformLen d' := by
  unfold DataSet.delete_instance at h
  by_cases h1 : dsLen d ≤ i
  · rw [if_pos h1] at h
    exact Except.noConfusion h
  · rw [if_neg h1] at h
    by_cases h2 : dsLen d = 1
    · rw [if_pos h2] at h
      injection h with h'
      subst h'
      intro p hp
      cases hp
    · rw [if_neg h2] at h
      injection h with h'
      subst h'
      apply uniform_of_allLen _ (dsLen d - 1)
      intro p hp
      simp only [List.mem_map] at hp
      obtain ⟨q, hq, hpq⟩ := hp
      rw [← hpq]
      simp only [List.length_eraseIdx]
      rw [hU q hq, if_pos (by omega)]

theorem appendStep_some (fas : List (String × List α)) (p : String × α)
    (v : List α) (hv : lookupD fas p.1 = some v) :
    appendStep fas p = Except.ok (dictAppendVal fas p.1 p.2) := by
  unfold appendStep
  rw [hv]

theorem append_fold_ok :
    ∀ (ins : Instance α) (fas : List (String × List α)),
      (∀ p ∈ ins, p.1 ∈ keysOf fas) →
      (ins.foldlM appendStep fas)
        = Except.ok (fas.map (fun q =>
            (q.1, q.2 ++ (ins.filter (fun p => p.1 = q.1)).map Prod.snd))) := by
  intro ins
  induction ins with
  | nil =>
    intro fas h
    show Except.ok fas = _
    congr 1
    simp
  | cons p t ih =>
    intro fas h
    have hp : p.1 ∈ keysOf fas := h p (by simp)
    have hsome : (lookupD fas p.1).isSome = true := (lookupD_isSome_iff p.1 fas).mpr hp
    obtain ⟨v, hv⟩ := Option.isSome_iff_exists.mp hsome
    have hmem : ∀ q ∈ t, q.1 ∈ keysOf (dictAppendVal fas p.1 p.2) := by
      intro q hq
      rw [keysOf_dictAppendVal]
      exact h q (by simp [hq])
    rw [List.foldlM_cons, appendStep_some fas p v hv]
    show (t.foldlM appendStep (dictAppendVal fas p.1 p.2)) = _
    rw [ih _ hmem]
    congr 1
    unfold dictAppendVal
    rw [List.map_map]
    apply List.map_congr_left
    intro q hq
    simp only [Function.comp_apply]
    by_cases hqp : q.1 = p.1
    · rw [if_pos hqp, List.filter_cons_of_pos (by simp [hqp])]
      simp
    · rw [if_neg hqp, List.filter_cons_of_neg (by simp; intro he; exact hqp he.symm)]

theorem append_fold_mem :
    ∀ (ins : Instance α) (fas fas' : List (String × List α)),
      (ins.foldlM appendStep fas) = Except.ok fas' →
      ∀ p ∈ ins, p.1 ∈ keysOf fas := by
  intro ins
  induction ins with
  | nil => intro fas fas' h p hp; cases hp
  | cons a t ih =>
    intro fas fas' h p hp
    rcases hl : lookupD fas a.1 with _ | v
    · rw [List.foldlM_cons] at h
      rw [show appendStep fas a = Except.error "no such field" from by
        unfold appendStep; rw [hl]] at h
      exact Except.noConfusion h
    · rcases List.mem_cons.mp hp with h1 | h1
      · rw [h1]
        exact (lookupD_isSome_iff a.1 fas).mp (by rw [hl]; rfl)
      · rw [List.foldlM_cons, appendStep_some fas a v hl] at h
        have h' : (t.foldlM appendStep (dictAppendVal fas a.1 a.2)) = Except.ok fas' := h
        have := ih (dictAppendVal fas a.1 a.2) fas' h' p h1
        rwa [keysOf_dictAppendVal] at this

theorem append_char_empty (d : DataSet α) (ins : Instance α) (d' : DataSet α)
    (he : d.field_arrays.isEmpty = true)
    (h : DataSet.append d ins = Except.ok d') :
    d'.field_arrays = ins.map (fun p => (p.1, [p.2])) := by
  unfold DataSet.append at h
  rw [if_pos he] at h
  injection h with h'
  rw [← h']

theorem append_char_nonempty (d : DataSet α) (ins : Instance α) (d' : DataSet α)
    (he : d.field_arrays.isEmpty = false)
    (h : DataSet.append d ins = Except.ok d') :
    d.field_arrays.length = ins.length
    ∧ (∀ p ∈ ins, p.1 ∈ keysOf d.field_arrays)
    ∧ d'.field_arrays = d.field_arrays.map
        (fun q => (q.1, q.2 ++ (ins.filter (fun p => p.1 = q.1)).map Prod.snd)) := by
  unfold DataSet.append at h
  rw [he] at h
  simp only [Bool.false_eq_true, if_false] at h
  by_cases hl : d.field_arrays.length ≠ ins.length
  · rw [if_pos hl] at h
    exact Except.noConfusion h
  · rw [if_neg hl] at h
    push_neg at hl
    rcases hf : (ins.foldlM appendStep d.field_arrays) with s | fas'
    · rw [hf] at h
      exact Except.noConfusion h
    · rw [hf] at h
      injection h with h'
      have hmem := append_fold_mem ins d.field_arrays fas' hf
      have hchar := append_fold_ok ins d.field_arrays hmem
      rw [hf] at hchar
      injection hchar with hchar'
      refine ⟨hl, hmem, ?_⟩
      rw [← h', ← hchar']

theorem filter_pair_eq_filter_keys (x : String) :
    ∀ (ins : Instance α),
      (ins.filter (fun p => p.1 = x)).length
        = ((keysOf ins).filter (fun k => k = x)).length := by
  intro ins
  induction ins with
  | nil => rfl
  | cons p t ih =>
    by_cases h : p.1 = x
    · rw [List.filter_cons_of_pos (by simp [h]),
        show keysOf (p :: t) = p.1 :: keysOf t from rfl,
        List.filter_cons_of_pos (by simp [h])]
      simp only [List.length_cons, ih]
    · rw [List.filter_cons_of_neg (by simp [h]),
        show keysOf (p :: t) = p.1 :: keysOf t from rfl,
        List.filter_cons_of_neg (by simp [h])]
      exact ih

theorem nodup_filter_eq_one (x : String) :
    ∀ (l : List String), l.Nodup → x ∈ l →
      (l.filter (fun k => k = x)).length = 1 := by
  intro l
  induction l with
  | nil => intro _ hx; cases hx
  | cons a t ih =>
    intro hN hx
    rw [List.nodup_cons] at hN
    by_cases h : a = x
    · rw [List.filter_cons_of_pos (by simp [h])]
      have hxe : t.filter (fun k => k = x) = [] := by
        rw [List.filter_eq_nil_iff]
        intro b hb
        simp only [decide_eq_true_eq]
        intro he
        exact hN.1 (by rw [h, ← he]; exact hb)
      rw [hxe]
      rfl
    · rw [List.filter_cons_of_neg (by simp [h])]
      apply ih hN.2
      rcases List.mem_cons.mp hx with h1 | h1
      · exact absurd h1.symm h
      · exact h1

theorem keys_iff_of_subset_lengths (ins : Instance α) (fas : List (String × List α))
    (hNi : (keysOf ins).Nodup) (hNf : (keysOf fas).Nodup)
    (hlen : fas.length = ins.length)
    (hsub : ∀ p ∈ ins, p.1 ∈ keysOf fas) :
    ∀ x, (x ∈ keysOf fas ↔ x ∈ keysOf ins) := by
  have hsub' : (keysOf ins).toFinset ⊆ (keysOf fas).toFinset := by
    intro x hx
    rw [List.mem_toFinset] at *
    obtain ⟨p, hp, hpx⟩ := List.mem_map.mp hx
    rw [← hpx]
    exact hsub p hp
  have hc : (keysOf fas).toFinset.card ≤ (keysOf ins).toFinset.card := by
    rw [List.toFinset_card_of_nodup hNi, List.toFinset_card_of_nodup hNf]
    unfold keysOf
    simp [hlen]
  have hfe := Finset.eq_of_subset_of_card_le hsub' hc
  intro x
  rw [← List.mem_toFinset, ← hfe, List.mem_toFinset]

theorem append_uniform (d : DataSet α) (ins : Instance α) (d' : DataSet α)
    (hU : UniformLen d) (hNf : (keysOf d.field_arrays).Nodup)
    (hNi : (keysOf ins).Nodup)
    (h : DataSet.append d ins = Except.ok d') : UniformLen d' := by
  rcases he : d.field_arrays.isEmpty with _ | _
  · obtain ⟨hlen, hsub, hchar⟩ := append_char_nonempty d ins d' he h
    apply uniform_of_allLen d'.field_arrays (dsLen d + 1)
    intro p hp
    rw [hchar] at hp
    simp only [List.mem_map] at hp
    obtain ⟨q, hq, hpq⟩ := hp
    rw [← hpq]
    simp only [List.length_append, List.length_map]
    rw [hU q hq, filter_pair_eq_filter_keys q.1 ins,
      nodup_filter_eq_one q.1 (keysOf ins) hNi
        ((keys_iff_of_subset_lengths ins d.field_arrays hNi hNf hlen hsub q.1).mp
          (List.mem_map_of_mem Prod.fst hq))]
  · have hchar := append_char_empty d ins d' he h
    apply uniform_of_allLen d'.field_arrays 1
    intro p hp
    rw [hchar] at hp
    simp only [List.mem_map] at hp
    obtain ⟨q, hq, hpq⟩ := hp
    rw [← hpq]
    rfl

theorem writeBack_uniform (results : List (String × List α)) :
    ∀ (d d' : DataSet α), UniformLen d →
      writeBack d results = (d', none) → UniformLen d' := by
  induction results with
  | nil =>
    intro d d' hU h
    injection h with h1 h2
    rw [← h1]
    exact hU
  | cons kv rest ih =>
    intro d d' hU h
    obtain ⟨k, v⟩ := kv
    simp only [writeBack] at h
    rcases haf : DataSet.add_field d k v with e | dmid
    · rw [haf] at h
      injection h with h1 h2
      exact Option.noConfusion h2
    · rw [haf] at h
      exact ih dmid d' (add_field_uniform d hU k v dmid haf) h

/-! ## Claim C8 -/

/-- C8: every public mutating operation of the Column Store — appending an
instance, adding a field, deleting an instance, deleting or renaming a
field, and the write-back of apply results — preserves the invariant that
all columns have identical length; the row count is derived from one
column's length (`__len__`), and an empty field mapping means `N = 0`.
The `Nodup` hypotheses record that Python dict keys (of the store and of
an appended instance) are unique. -/
theorem column_store_invariant_C8 {α : Type} (d : DataSet α)
    (hU : UniformLen d) (hNf : (keysOf d.field_arrays).Nodup) :
    (∀ ins d', (keysOf ins).Nodup →
        DataSet.append d ins = Except.ok d' → UniformLen d')
    ∧ (∀ name fields d',
        DataSet.add_field d name fields = Except.ok d' → UniformLen d')
    ∧ (∀ i d', DataSet.delete_instance d i = Except.ok d' → UniformLen d')
    ∧ (∀ name d', DataSet.delete_field d name = Except.ok d' → UniformLen d')
    ∧ (∀ old nw d', DataSet.rename_field d old nw = Except.ok d' → UniformLen d')
    ∧ (∀ results d', writeBack d results = (d', none) → UniformLen d')
    ∧ (∀ e : DataSet α, e.field_arrays = [] → dsLen e = 0)
    ∧ (∀ p ∈ d.field_arrays, p.2.length = dsLen d) := by
  refine ⟨?_, ?_, ?_, ?_, ?_, ?_, ?_, hU⟩
  · exact fun ins d' hNi h => append_uniform d ins d' hU hNf hNi h
  · exact fun name fields d' h => add_field_uniform d hU name fields d' h
  · exact fun i d' h => delete_instance_uniform d hU i d' h
  · exact fun name d' h => delete_field_uniform d hU name d' h
  · exact fun old nw d' h => rename_field_uniform d hU old nw d' h
  · exact fun results d' h => writeBack_uniform results d d' hU h
  · intro e h
    simp [dsLen, h]

/-- Witness for C8 on a concrete two-column, two-row store. -/
theorem column_store_invariant_C8_witness :
    (∀ ins d', (keysOf ins).Nodup →
        DataSet.append (⟨[("x", [1, 2]), ("y", [3, 4])]⟩ : DataSet Nat) ins
          = Except.ok d' → UniformLen d')
    ∧ (∀ name fields d',
        DataSet.add_field (⟨[("x", [1, 2]), ("y", [3, 4])]⟩ : DataSet Nat) name fields
          = Except.ok d' → UniformLen d')
    ∧ (∀ i d', DataSet.delete_instance (⟨[("x", [1, 2]), ("y", [3, 4])]⟩ : DataSet Nat) i
          = Except.ok d' → UniformLen d')
    ∧ (∀ name d', DataSet.delete_field (⟨[("x", [1, 2]), ("y", [3, 4])]⟩ : DataSet Nat) name
          = Except.ok d' → UniformLen d')
    ∧ (∀ old nw d',
        DataSet.rename_field (⟨[("x", [1, 2]), ("y", [3, 4])]⟩ : DataSet Nat) old nw
          = Except.ok d' → UniformLen d')
    ∧ (∀ results d', writeBack (⟨[("x", [1, 2]), ("y", [3, 4])]⟩ : DataSet Nat) results
          = (d', none) → UniformLen d')
    ∧ (∀ e : DataSet Nat, e.field_arrays = [] → dsLen e = 0)
    ∧ (∀ p ∈ (⟨[("x", [1, 2]), ("y", [3, 4])]⟩ : DataSet Nat).field_arrays,
        p.2.length = dsLen (⟨[("x", [1, 2]), ("y", [3, 4])]⟩ : DataSet Nat)) :=
  column_store_invariant_C8 (⟨[("x", [1, 2]), ("y", [3, 4])]⟩ : DataSet Nat)
    (by unfold UniformLen; decide) (by decide)

/-! ### Slice / concat lemmas -/

theorem add_field_ok_of (acc : List (String × List α)) (k : String) (v : List α)
    (h : acc = [] ∨ dsLen (⟨acc⟩ : DataSet α) = v.length) :
    DataSet.add_field (⟨acc⟩ : DataSet α) k v = Except.ok ⟨dictSet acc k v⟩ := by
  unfold DataSet.add_field
  have hc : (!(⟨acc⟩ : DataSet α).field_arrays.isEmpty
      && dsLen (⟨acc⟩ : DataSet α) != v.length) = false := by
    rcases h with h | h
    · subst h
      rfl
    · rw [h]
      simp
  rw [hc]
  rfl

theorem add_field_build :
    ∀ (entries acc : List (String × List α)) (M : Nat),
      (∀ p ∈ entries, p.2.length = M) →
      (acc ≠ [] → dsLen (⟨acc⟩ : DataSet α) = M) →
      (∀ p ∈ entries, p.1 ∉ keysOf acc) →
      (keysOf entries).Nodup →
      entries.foldlM (fun (acc' : DataSet α) (p : String × List α) =>
          DataSet.add_field acc' p.1 p.2) (⟨acc⟩ : DataSet α)
        = Except.ok ⟨acc ++ entries⟩ := by
  intro entries
  induction entries with
  | nil =>
    intro acc M h1 h2 h3 h4
    show Except.ok (⟨acc⟩ : DataSet α) = _
    rw [List.append_nil]
  | cons kv rest ih =>
    intro acc M h1 h2 h3 h4
    obtain ⟨k, v⟩ := kv
    have hkacc : k ∉ keysOf acc := h3 (k, v) (by simp)
    rw [List.foldlM_cons,
      add_field_ok_of acc k v (by
        rcases Classical.em (acc = []) with h | h
        · exact Or.inl h
        · exact Or.inr (by rw [h2 h, h1 (k, v) (by simp)])),
      dictSet_append k v acc hkacc]
    show (rest.foldlM (fun (acc' : DataSet α) (p : String × List α) =>
        DataSet.add_field acc' p.1 p.2) (⟨acc ++ [(k, v)]⟩ : DataSet α)) = _
    have hN : (keysOf rest).Nodup ∧ k ∉ keysOf rest := by
      simp only [keysOf, List.map_cons, List.nodup_cons] at h4
      exact ⟨h4.2, h4.1⟩
    rw [ih (acc ++ [(k, v)]) M (fun p hp => h1 p (by simp [hp]))
      (fun _ => ?hlen)
      (fun p hp => ?hkey) hN.1]
    · rw [List.append_assoc, List.singleton_append]
    case hlen =>
      rcases acc with _ | ⟨q, t⟩
      · exact h1 (k, v) (by simp)
      · exact h2 (by simp)
    case hkey =>
      rw [show keysOf (acc ++ [(k, v)]) = keysOf acc ++ [k] from by
        simp [keysOf]]
      intro hmem
      rcases List.mem_append.mp hmem with hm | hm
      · exact h3 p (by simp [hp]) hm
      · rw [List.mem_singleton] at hm
        exact hN.2 (hm ▸ List.mem_map_of_mem Prod.fst hp)

theorem getSlice_eq (d : DataSet α) (a b M : Nat)
    (hguard : ¬ a ≥ dsLen d)
    (hNf : (keysOf d.field_arrays).Nodup)
    (hlen : ∀ q ∈ d.field_arrays, ((q.2.drop a).take (b - a)).length = M) :
    DataSet.getSlice d a b
      = Except.ok ⟨d.field_arrays.map (fun q => (q.1, (q.2.drop a).take (b - a)))⟩ := by
  unfold DataSet.getSlice
  rw [if_neg hguard]
  have hmap : d.field_arrays.foldlM
      (fun acc p => DataSet.add_field acc p.1 ((p.2.drop a).take (b - a)))
      (⟨[]⟩ : DataSet α)
      = (d.field_arrays.map (fun q => (q.1, (q.2.drop a).take (b - a)))).foldlM
          (fun (acc' : DataSet α) (p : String × List α) =>
            DataSet.add_field acc' p.1 p.2) (⟨[]⟩ : DataSet α) :=
    (List.foldlM_map (fun q : String × List α => (q.1, (q.2.drop a).take (b - a)))
      (fun (acc' : DataSet α) (p : String × List α) =>
        DataSet.add_field acc' p.1 p.2) d.field_arrays (⟨[]⟩ : DataSet α)).symm
  rw [hmap, add_field_build _ [] M ?h1 (fun h => absurd rfl h) ?h3 ?h4]
  · rw [List.nil_append]
  case h1 =>
    intro p hp
    obtain ⟨q, hq, hpq⟩ := List.mem_map.mp hp
    rw [← hpq]
    exact hlen q hq
  case h3 =>
    intro p hp hmem
    cases hmem
  case h4 =>
    rw [keysOf_map_pres (fun q => (q.2.drop a).take (b - a)) d.field_arrays]
    exact hNf

theorem concat_map_slices (d : DataSet α)
    (hNf : (keysOf d.field_arrays).Nodup)
    (v1 v2 : (String × List α) → List α) :
    DataSet.concat ⟨d.field_arrays.map (fun q => (q.1, v1 q))⟩
        ⟨d.field_arrays.map (fun q => (q.1, v2 q))⟩
      = Except.ok ⟨d.field_arrays.map (fun q => (q.1, v1 q ++ v2 q))⟩ := by
  have hlook : ∀ q ∈ d.field_arrays,
      lookupD (d.field_arrays.map (fun q' => (q'.1, v2 q'))) q.1 = some (v2 q) := by
    intro q hq
    have hN2 : (keysOf (d.field_arrays.map (fun q' => (q'.1, v2 q')))).Nodup := by
      rw [keysOf_map_pres]
      exact hNf
    exact lookupD_eq_of_mem_nodup _ hN2 (q.1, v2 q)
      (List.mem_map_of_mem (fun q' => (q'.1, v2 q')) hq)
  unfold DataSet.concat
  rw [if_pos ?hall]
  · congr 1
    rw [List.map_map]
    congr 1
    apply List.map_congr_left
    intro q hq
    simp only [Function.comp_apply]
    rw [hlook q hq]
    rfl
  case hall =>
    rw [List.all_eq_true]
    intro p hp
    obtain ⟨q, hq, hpq⟩ := List.mem_map.mp hp
    rw [← hpq]
    simp only []
    rw [hlook q hq]
    rfl

theorem getRowGo_some_of (idx : Nat) :
    ∀ (fas : List (String × List α)),
      (∀ q ∈ fas, ∃ v, q.2.get? idx = some v) →
      ∃ row, DataSet.getRowGo idx fas = some row
        ∧ keysOf row = keysOf fas
        ∧ ∀ q ∈ fas, ∀ v, q.2.get? idx = some v → (q.1, v) ∈ row := by
  intro fas
  induction fas with
  | nil =>
    intro h
    exact ⟨[], rfl, rfl, fun q hq => absurd hq (List.not_mem_nil q)⟩
  | cons q t ih =>
    intro h
    obtain ⟨v, hv⟩ := h q (by simp)
    obtain ⟨row', hrow', hkeys', hmem'⟩ := ih (fun q' hq' => h q' (by simp [hq']))
    refine ⟨(q.1, v) :: row', ?_, ?_, ?_⟩
    · simp only [DataSet.getRowGo, hv, hrow']
      rfl
    · simp only [keysOf, List.map_cons] at *
      rw [hkeys']
    · intro q' hq' v' hv'
      rcases List.mem_cons.mp hq' with h1 | h1
      · rw [h1] at hv'
        rw [hv] at hv'
        injection hv' with hv''
        rw [h1, ← hv'']
        exact List.mem_cons_self _ _
      · exact List.mem_cons_of_mem _ (hmem' q' h1 v' hv')

theorem lookupD_none_of_not_mem {γ : Type} (l : List (String × γ)) (name : String)
    (h : name ∉ keysOf l) : lookupD l name = none := by
  rcases hx : lookupD l name with _ | v
  · rfl
  · exact absurd ((lookupD_isSome_iff name l).mp (by rw [hx]; rfl)) h

/-! ## Claim C9 -/

/-- C9: for a valid split point `0 < a < N`, slicing the dataset into
`[0:a]` and `[a:N]` and reassembling with `concat` restores the Column
Store exactly, field for field and element for element; and appending an
instance then reading the row back at its index gives a Row View whose
lookups agree with the inserted values.  The `Nodup` hypotheses record
that Python dict keys are unique. -/
theorem slice_concat_roundtrip_C9 {α : Type} (d : DataSet α) (a : Nat)
    (hU : UniformLen d) (hNf : (keysOf d.field_arrays).Nodup)
    (h0 : 0 < a) (ha : a < dsLen d) :
    (∃ s1 s2 d2,
      DataSet.getSlice d 0 a = Except.ok s1
      ∧ DataSet.getSlice d a (dsLen d) = Except.ok s2
      ∧ DataSet.concat s1 s2 = Except.ok d2
      ∧ d2.field_arrays = d.field_arrays)
    ∧ (∀ ins d', (keysOf ins).Nodup → DataSet.append d ins = Except.ok d' →
        ∃ row, DataSet.getRow? d' (dsLen d) = some row
          ∧ ∀ name, lookupD row name = lookupD ins name) := by
  constructor
  · have hs1 : DataSet.getSlice d 0 a
        = Except.ok ⟨d.field_arrays.map (fun q => (q.1, (q.2.drop 0).take (a - 0)))⟩ := by
      apply getSlice_eq d 0 a a (by omega) hNf
      intro q hq
      simp only [List.drop_zero, Nat.sub_zero, List.length_take, hU q hq]
      omega
    have hs2 : DataSet.getSlice d a (dsLen d)
        = Except.ok ⟨d.field_arrays.map
            (fun q => (q.1, (q.2.drop a).take (dsLen d - a)))⟩ := by
      apply getSlice_eq d a (dsLen d) (dsLen d - a) (by omega) hNf
      intro q hq
      simp only [List.length_take, List.length_drop, hU q hq]
      omega
    refine ⟨_, _, _, hs1, hs2,
      concat_map_slices d hNf (fun q => (q.2.drop 0).take (a - 0))
        (fun q => (q.2.drop a).take (dsLen d - a)), ?_⟩
    show d.field_arrays.map
        (fun q => (q.1, (q.2.drop 0).take (a - 0) ++ (q.2.drop a).take (dsLen d - a)))
      = d.field_arrays
    have hid : ∀ q ∈ d.field_arrays,
        (q.1, (q.2.drop 0).take (a - 0) ++ (q.2.drop a).take (dsLen d - a)) = q := by
      intro q hq
      have hL := hU q hq
      have h2take : (q.2.drop a).take (dsLen d - a) = q.2.drop a :=
        List.take_of_length_le (le_of_eq (by rw [List.length_drop, hL]))
      rw [List.drop_zero, Nat.sub_zero, h2take, List.take_append_drop]
    rw [List.map_congr_left hid]
    simp
  · intro ins d' hNi happ
    rcases he : d.field_arrays.isEmpty with _ | _
    · obtain ⟨hlen, hsub, hchar⟩ := append_char_nonempty d ins d' he happ
      have hkeys := keys_iff_of_subset_lengths ins d.field_arrays hNi hNf hlen hsub
      have huniq : ∀ q ∈ d.field_arrays, ∃ p0 : String × α, p0 ∈ ins ∧ p0.1 = q.1
          ∧ (ins.filter (fun p => p.1 = q.1)).map Prod.snd = [p0.2] := by
        intro q hq
        have hqk : q.1 ∈ keysOf ins := (hkeys q.1).mp (List.mem_map_of_mem Prod.fst hq)
        have hflen : (ins.filter (fun p => p.1 = q.1)).length = 1 := by
          rw [filter_pair_eq_filter_keys q.1 ins]
          exact nodup_filter_eq_one q.1 (keysOf ins) hNi hqk
        obtain ⟨p0, hp0⟩ := List.length_eq_one.mp hflen
        have hp0f : p0 ∈ ins.filter (fun p => p.1 = q.1) := by
          rw [hp0]
          exact List.mem_singleton_self p0
        rw [List.mem_filter] at hp0f
        exact ⟨p0, hp0f.1, by simpa using hp0f.2, by rw [hp0]; rfl⟩
      have hrowpre : ∀ q' ∈ d'.field_arrays, ∃ v, q'.2.get? (dsLen d) = some v := by
        intro q' hq'
        rw [hchar] at hq'
        obtain ⟨q, hq, hqq'⟩ := List.mem_map.mp hq'
        obtain ⟨p0, hp0i, hp0k, hp0v⟩ := huniq q hq
        refine ⟨p0.2, ?_⟩
        rw [← hqq']
        show (q.2 ++ (ins.filter (fun p => p.1 = q.1)).map Prod.snd).get? (dsLen d)
          = some p0.2
        rw [hp0v, show dsLen d = q.2.length from (hU q hq).symm]
        exact List.get?_concat_length q.2 p0.2
      obtain ⟨row, hrow, hrkeys, hrmem⟩ :=
        getRowGo_some_of (dsLen d) d'.field_arrays hrowpre
      refine ⟨row, hrow, ?_⟩
      have hrowN : (keysOf row).Nodup := by
        rw [hrkeys, hchar, keysOf_map_pres]
        exact hNf
      intro name
      by_cases hname : name ∈ keysOf d.field_arrays
      · obtain ⟨q, hq, hqname⟩ := List.mem_map.mp hname
        obtain ⟨p0, hp0i, hp0k, hp0v⟩ := huniq q hq
        have hq' : (q.1, q.2 ++ [p0.2]) ∈ d'.field_arrays := by
          rw [hchar]
          refine List.mem_map.mpr ⟨q, hq, ?_⟩
          show (q.1, q.2 ++ (ins.filter (fun p => p.1 = q.1)).map Prod.snd) = _
          rw [hp0v]
        have hget : (q.2 ++ [p0.2]).get? (dsLen d) = some p0.2 := by
          rw [show dsLen d = q.2.length from (hU q hq).symm]
          exact List.get?_concat_length q.2 p0.2
        have hlookrow : lookupD row q.1 = some p0.2 :=
          lookupD_eq_of_mem_nodup row hrowN (q.1, p0.2)
            (hrmem (q.1, q.2 ++ [p0.2]) hq' p0.2 hget)
        have hlookins : lookupD ins q.1 = some p0.2 := by
          have := lookupD_eq_of_mem_nodup ins hNi p0 hp0i
          rw [hp0k] at this
          exact this
        rw [← hqname, hlookrow, hlookins]
      · rw [lookupD_none_of_not_mem row name (by
            rw [hrkeys, hchar, keysOf_map_pres]
            exact hname),
          lookupD_none_of_not_mem ins name (fun hm => hname ((hkeys name).mpr hm))]
    · have hchar := append_char_empty d ins d' he happ
      have hdl : dsLen d = 0 := by
        unfold dsLen
        rw [List.isEmpty_iff.mp he]
      have hrowpre : ∀ q' ∈ d'.field_arrays, ∃ v, q'.2.get? (dsLen d) = some v := by
        intro q' hq'
        rw [hchar] at hq'
        obtain ⟨p, hp, hpq'⟩ := List.mem_map.mp hq'
        refine ⟨p.2, ?_⟩
        rw [← hpq', hdl]
        rfl
      obtain ⟨row, hrow, hrkeys, hrmem⟩ :=
        getRowGo_some_of (dsLen d) d'.field_arrays hrowpre
      refine ⟨row, hrow, ?_⟩
      have hrowN : (keysOf row).Nodup := by
        rw [hrkeys, hchar, keysOf_map_pres]
        exact hNi
      intro name
      by_cases hname : name ∈ keysOf ins
      · obtain ⟨p, hp, hpname⟩ := List.mem_map.mp hname
        have hq' : (p.1, ([p.2] : List α)) ∈ d'.field_arrays := by
          rw [hchar]
          exact List.mem_map_of_mem _ hp
        have hget : ([p.2] : List α).get? (dsLen d) = some p.2 := by
          rw [hdl]
          rfl
        have hlookrow : lookupD row p.1 = some p.2 :=
          lookupD_eq_of_mem_nodup row hrowN (p.1, p.2)
            (hrmem (p.1, [p.2]) hq' p.2 hget)
        rw [← hpname, hlookrow, lookupD_eq_of_mem_nodup ins hNi p hp]
      · rw [lookupD_none_of_not_mem row name (by
            rw [hrkeys, hchar, keysOf_map_pres]
            exact hname),
          lookupD_none_of_not_mem ins name hname]

/-- Witness for C9 on a concrete two-column, three-row store split at `a = 1`. -/
theorem slice_concat_roundtrip_C9_witness :
    (∃ s1 s2 d2,
      DataSet.getSlice (⟨[("x", [1, 2, 3]), ("y", [4, 5, 6])]⟩ : DataSet Nat) 0 1
        = Except.ok s1
      ∧ DataSet.getSlice (⟨[("x", [1, 2, 3]), ("y", [4, 5, 6])]⟩ : DataSet Nat) 1
          (dsLen (⟨[("x", [1, 2, 3]), ("y", [4, 5, 6])]⟩ : DataSet Nat))
        = Except.ok s2
      ∧ DataSet.concat s1 s2 = Except.ok d2
      ∧ d2.field_arrays = (⟨[("x", [1, 2, 3]), ("y", [4, 5, 6])]⟩ : DataSet Nat).field_arrays)
    ∧ (∀ ins d', (keysOf ins).Nodup →
        DataSet.append (⟨[("x", [1, 2, 3]), ("y", [4, 5, 6])]⟩ : DataSet Nat) ins
          = Except.ok d' →
        ∃ row, DataSet.getRow? d'
            (dsLen (⟨[("x", [1, 2, 3]), ("y", [4, 5, 6])]⟩ : DataSet Nat)) = some row
          ∧ ∀ name, lookupD row name = lookupD ins name) :=
  slice_concat_roundtrip_C9 (⟨[("x", [1, 2, 3]), ("y", [4, 5, 6])]⟩ : DataSet Nat) 1
    (by unfold UniformLen; decide) (by decide) (by decide) (by decide)

/-! ## Claim C10 -/

/-- C10: deleting the single instance of a one-row dataset clears the
whole Column Store — every field name is lost (`field_arrays.clear()` at
line 294) — while deleting one instance of a dataset with two or more rows
keeps the full set of field names and only pops that row's value from each
column. -/
theorem delete_instance_semantics_C10 {α : Type} (d : DataSet α) (hU : UniformLen d) :
    (dsLen d = 1 → DataSet.delete_instance d 0 = Except.ok (⟨[]⟩ : DataSet α))
    ∧ (2 ≤ dsLen d → ∀ i, i < dsLen d →
        DataSet.delete_instance d i
          = Except.ok ⟨d.field_arrays.map (fun p => (p.1, p.2.eraseIdx i))⟩
        ∧ keysOf (d.field_arrays.map (fun p => (p.1, p.2.eraseIdx i)))
          = keysOf d.field_arrays) := by
  constructor
  · intro h1
    unfold DataSet.delete_instance
    rw [if_neg (by omega), if_pos h1]
  · intro h2 i hi
    constructor
    · unfold DataSet.delete_instance
      rw [if_neg (by omega), if_neg (by omega)]
    · exact keysOf_map_pres (fun p => p.2.eraseIdx i) d.field_arrays

/-- Witness for C10 on a one-row, two-column store: the delete clears all
fields. -/
theorem delete_instance_semantics_C10_witness :
    (dsLen (⟨[("x", [7]), ("y", [9])]⟩ : DataSet Nat) = 1 →
      DataSet.delete_instance (⟨[("x", [7]), ("y", [9])]⟩ : DataSet Nat) 0
        = Except.ok (⟨[]⟩ : DataSet Nat))
    ∧ (2 ≤ dsLen (⟨[("x", [7]), ("y", [9])]⟩ : DataSet Nat) →
        ∀ i, i < dsLen (⟨[("x", [7]), ("y", [9])]⟩ : DataSet Nat) →
        DataSet.delete_instance (⟨[("x", [7]), ("y", [9])]⟩ : DataSet Nat) i
          = Except.ok ⟨(⟨[("x", [7]), ("y", [9])]⟩ : DataSet Nat).field_arrays.map
              (fun p => (p.1, p.2.eraseIdx i))⟩
        ∧ keysOf ((⟨[("x", [7]), ("y", [9])]⟩ : DataSet Nat).field_arrays.map
              (fun p => (p.1, p.2.eraseIdx i)))
          = keysOf (⟨[("x", [7]), ("y", [9])]⟩ : DataSet Nat).field_arrays) :=
  delete_instance_semantics_C10 (⟨[("x", [7]), ("y", [9])]⟩ : DataSet Nat)
    (by unfold UniformLen; decide)
